import Mathlib

/-!
Verification of the search routines in find.c.

The C program scans an array of 32-bit integers for all occurrences of a
target value.  It provides a scalar scan (find), an AVX vectorized scan
(vect_find) and a multithreaded scan (thread_find) that partitions the
strided range over NB_THREADS = 8 workers, with an optional watchdog
thread that cooperatively cancels the workers once more than k matches
have been published.

Modelling conventions:
* The array U is a List Int; C reads U[i] become getI U i, which yields 0
  for an index outside the list (the C code has undefined behaviour
  there; the safety claim uses the guarded variant getE instead).
* C int values are modelled as unbounded Int.  None of the loops below
  relies on wraparound for the inputs considered by the claims; inputs
  are assumed small enough that no intermediate C expression overflows.
* C truncating division is Int.tdiv, C remainder by 8 in validation
  tests is the divisibility test i_step % 8 = 0, on which truncating and
  euclidean remainders agree.
* Loops become structurally or well-founded recursive functions.  The C
  loops do not terminate for a non-positive step, so each loop guard
  carries 0 < i_step; all claims constrain the step to be positive.
* The result buffer ind_val plus the returned count nb_find are modelled
  as a single list of indices; the C code keeps nb_find equal to the
  number of entries written to ind_val at every step, so the count is
  the length of that list.
* The AVX comparison _mm256_cmp_ps(..., _CMP_EQ_OS) reinterprets the
  four-byte integer lanes as IEEE-754 single-precision floats and
  compares those for equality.  That comparison is a pure function of
  the two 32-bit patterns and is modelled bit-exactly by floatEqBits:
  any NaN pattern compares unequal to everything, the two zero patterns
  compare equal to each other, and otherwise patterns compare equal
  exactly when they are identical.
-/

/-- Reading U[i] in C, totalised with default value 0 for an index outside
the array (such a C read is undefined behaviour). -/
def getI (U : List Int) (i : Int) : Int :=
  if 0 ≤ i then U.getD i.toNat 0 else 0

/-- Guarded array read: some value only when the index is inside the array. -/
def getE (U : List Int) (i : Int) : Option Int :=
  if 0 ≤ i ∧ i < (U.length : Int) then some (getI U i) else none

/-- Two-complement 32-bit pattern of a C int value. -/
def toBits (v : Int) : Nat :=
  (v % (2 : Int) ^ 32).toNat

/-- Pattern b is an IEEE-754 single NaN: exponent bits 23..30 all ones and
nonzero mantissa. -/
def isNaNBits (b : Nat) : Bool :=
  (b / 2 ^ 23) % 256 == 255 && b % 2 ^ 23 != 0

/-- Pattern b is one of the two IEEE-754 single zeros. -/
def isZeroBits (b : Nat) : Bool :=
  b % 2 ^ 31 == 0

/-- IEEE-754 single-precision equality on 32-bit patterns, as computed by
_CMP_EQ_OS: false on NaN, true on the pair of zeros, otherwise pattern
identity. -/
def floatEqBits (a b : Nat) : Bool :=
  if isNaNBits a || isNaNBits b then false
  else (isZeroBits a && isZeroBits b) || a == b

/-- One lane of _mm256_cmp_ps(_mm256_loadu_ps(U + i), vect_val, _CMP_EQ_OS):
the int bit patterns of the element and of the target are compared as
floats. -/
def laneEq (x v : Int) : Bool :=
  floatEqBits (toBits x) (toBits v)

/-- Value range on which the float comparison of int bit patterns agrees
with integer equality (no NaN patterns, no negative zero). -/
def floatExact (v : Int) : Prop :=
  0 ≤ v ∧ v ≤ 2 ^ 23

/-- The movemask bitmask of n comparison lanes starting at index i: bit t is
set iff lane t (element U[i + t]) compares equal to val.  In vect_find the
block width n is 8. -/
def maskLanes (U : List Int) (val : Int) : Int → Nat → Nat
  | _, 0 => 0
  | i, n + 1 => (if laneEq (getI U i) val then 1 else 0) + 2 * maskLanes U val (i + 1) n

/-- The inner bit-extraction loop of vect_find: for (j = i; mask != 0; j++)
appends j whenever the low bit of mask is set, then shifts mask right.
The count_ones_table of the C code only sizes the realloc and does not
affect which indices are appended. -/
def extractBits (mask : Nat) (j : Int) : List Int :=
  if h : mask ≠ 0 then
    (if mask % 2 = 1 then [j] else []) ++ extractBits (mask / 2) (j + 1)
  else []
termination_by mask
decreasing_by exact Nat.div_lt_self (Nat.pos_of_ne_zero h) (by omega)

/-- The loop of find: for (i = i_start; i <= i_end; i += i_step) appends i
whenever U[i] == val. -/
def findLoop (U : List Int) (val i_end i_step : Int) (i : Int) : List Int :=
  if h : 0 < i_step ∧ i ≤ i_end then
    (if getI U i = val then [i] else []) ++ findLoop U val i_end i_step (i + i_step)
  else []
termination_by (i_end + 1 - i).toNat
decreasing_by omega

/-- The scalar implementation find of find.c: the list of indices written to
ind_val; the returned count nb_find is the length of that list. -/
def find (U : List Int) (i_start i_end i_step val : Int) : List Int :=
  findLoop U val i_end i_step i_start

/-- The main loop of vect_find (for (i = i_start; i + 8 < i_end; i += i_step)
processing one 8-lane block per iteration) followed by its scalar tail loop
(for (; i <= i_end; i++)), which is the body of findLoop with step 1. -/
def vect_loop (U : List Int) (val i_end i_step : Int) (i : Int) : List Int :=
  if h : 0 < i_step ∧ i + 8 < i_end then
    extractBits (maskLanes U val i 8) i ++ vect_loop U val i_end i_step (i + i_step)
  else
    findLoop U val i_end 1 i
termination_by (i_end - i).toNat
decreasing_by omega

/-- The vector implementation vect_find of find.c: none models the early
return -1 on a step that is not a multiple of 8 (C computes i_step % 8 with
truncating remainder, which vanishes exactly when the euclidean remainder
does). -/
def vect_find (U : List Int) (i_start i_end i_step val : Int) : Option (List Int) :=
  if i_step % 8 ≠ 0 then none
  else some (vect_loop U val i_end i_step i_start)

/-- The worker body scalar_thread_function: the loop of find, except that
each iteration first reads the shared flag stop_threads and calls
pthread_exit when it is set.  The parameter stop is the value of the flag
during the modelled stretch of execution. -/
def scalar_thread_function (stop : Bool) (U : List Int) (val i_end i_step : Int) (i : Int) : List Int :=
  if h : 0 < i_step ∧ i ≤ i_end then
    if stop then []
    else (if getI U i = val then [i] else []) ++
      scalar_thread_function stop U val i_end i_step (i + i_step)
  else []
termination_by (i_end + 1 - i).toNat
decreasing_by omega

/-- The worker body vect_thread_function: the main loop of vect_find with a
stop_threads check at the head of each block iteration (pthread_exit skips
the tail), followed by the unguarded scalar tail loop. -/
def vect_thread_function (stop : Bool) (U : List Int) (val i_end i_step : Int) (i : Int) : List Int :=
  if h : 0 < i_step ∧ i + 8 < i_end then
    if stop then []
    else extractBits (maskLanes U val i 8) i ++
      vect_thread_function stop U val i_end i_step (i + i_step)
  else
    findLoop U val i_end 1 i
termination_by (i_end - i).toNat
decreasing_by omega

/-- The number of strides M = (i_end - i_start) / i_step + 1 used by the
segment planner of thread_find (C truncating division). -/
def stride_count (i_start i_end i_step : Int) : Int :=
  Int.tdiv (i_end - i_start) i_step + 1

/-- Segment start for worker t in thread_find:
t * M / NB_THREADS * i_step + i_start with NB_THREADS = 8. -/
def seg_i_start (i_start i_end i_step : Int) (t : Nat) : Int :=
  Int.tdiv ((t : Int) * stride_count i_start i_end i_step) 8 * i_step + i_start

/-- Segment end for worker t in thread_find:
(t + 1) * M / NB_THREADS * i_step + i_start - 1 with NB_THREADS = 8. -/
def seg_i_end (i_start i_end i_step : Int) (t : Nat) : Int :=
  Int.tdiv (((t : Int) + 1) * stride_count i_start i_end i_step) 8 * i_step + i_start - 1

/-- The list of matches worker t produces when it runs to completion while
the flag stop_threads holds the constant value stop0 (ver selects the
strategy exactly as the switch in thread_find does). -/
def seg_run (ver : Int) (stop0 : Bool) (U : List Int) (i_start i_end i_step val : Int) (t : Nat) : List Int :=
  if ver = 0 then
    scalar_thread_function stop0 U val (seg_i_end i_start i_end i_step t) i_step
      (seg_i_start i_start i_end i_step t)
  else
    vect_thread_function stop0 U val (seg_i_end i_start i_end i_step t) i_step
      (seg_i_start i_start i_end i_step t)

/-- The per-worker buffers after a run in which worker t was cooperatively
cancelled after producing cut t of its matches (cut t at least the full
length models a worker that was never cancelled). -/
def worker_outs (ver : Int) (stop0 : Bool) (U : List Int) (i_start i_end i_step val : Int) (cut : Nat → Nat) : List (List Int) :=
  (List.range 8).map fun t => (seg_run ver stop0 U i_start i_end i_step val t).take (cut t)

/-- The aggregation step of thread_find: the concatenated buffer, truncated
to k entries when a threshold k was supplied (k >= 0) and the raw count
exceeds it. -/
def assemble (k : Int) (all : List Int) : List Int :=
  if 0 ≤ k ∧ k < (all.length : Int) then all.take k.toNat else all

/-- The validation switch at the top of thread_find: ver 0 is always
accepted, ver 1 requires a step that is a multiple of 8, anything else is
rejected. -/
def thread_find_ok (i_step ver : Int) : Bool :=
  ver == 0 || (ver == 1 && i_step % 8 == 0)

/-- The possible outcomes of one thread_find invocation entered with the
shared flag stop_threads equal to stop0.

When validation fails the call returns -1 without starting a thread,
modelled as res = none.  Otherwise every worker t produces a prefix
(take (cut t)) of its complete run seg_run: the scalar worker checks the
flag once per iteration and the vector worker once per block, so a
cooperatively cancelled worker keeps exactly the matches appended so far.
Workers can be cut short only by the watchdog watch_nb_find, which exists
only when 0 <= k and raises the flag only after reading a counter sum
strictly greater than k; each counter is monotone and ends at the length
of that worker buffer, so any cancellation forces the final total over k.
The dispatcher then joins the buffers in segment order and trims with
assemble. -/
def thread_find_rel (U : List Int) (i_start i_end i_step val k ver : Int) (stop0 : Bool) (res : Option (List Int)) : Prop :=
  if thread_find_ok i_step ver then
    ∃ cut : Nat → Nat,
      ((∀ t < 8, (seg_run ver stop0 U i_start i_end i_step val t).length ≤ cut t) ∨
        (0 ≤ k ∧ k < ((worker_outs ver stop0 U i_start i_end i_step val cut).flatten.length : Int))) ∧
      res = some (assemble k (worker_outs ver stop0 U i_start i_end i_step val cut).flatten)
  else res = none

/-- The value of the shared flag stop_threads after a thread_find call
entered with value stop0: the dispatcher sets it to true unconditionally
after joining the workers (line 285), and never resets it; a validation
failure returns before touching it. -/
def stop_after (stop0 : Bool) (i_step ver : Int) : Bool :=
  if thread_find_ok i_step ver then true else stop0

/-- Guarded variant of findLoop: every array read is bounds-checked and the
scan aborts with none if any read is outside the array. -/
def findLoopChecked (U : List Int) (val i_end i_step : Int) (i : Int) : Option (List Int) :=
  if h : 0 < i_step ∧ i ≤ i_end then
    (getE U i).bind fun x =>
      (findLoopChecked U val i_end i_step (i + i_step)).map fun r =>
        (if x = val then [i] else []) ++ r
  else some []
termination_by (i_end + 1 - i).toNat
decreasing_by omega

/-- Guarded variant of find. -/
def findChecked (U : List Int) (i_start i_end i_step val : Int) : Option (List Int) :=
  findLoopChecked U val i_end i_step i_start

/-- Guarded variant of maskLanes: the 8-lane vector load reads U[i..i+n-1]
and fails if any lane is outside the array. -/
def maskLanesChecked (U : List Int) (val : Int) : Int → Nat → Option Nat
  | _, 0 => some 0
  | i, n + 1 =>
    (getE U i).bind fun x =>
      (maskLanesChecked U val (i + 1) n).map fun m =>
        (if laneEq x val then 1 else 0) + 2 * m

/-- Guarded variant of vect_loop. -/
def vect_loopChecked (U : List Int) (val i_end i_step : Int) (i : Int) : Option (List Int) :=
  if h : 0 < i_step ∧ i + 8 < i_end then
    (maskLanesChecked U val i 8).bind fun m =>
      (vect_loopChecked U val i_end i_step (i + i_step)).map fun r =>
        extractBits m i ++ r
  else
    findLoopChecked U val i_end 1 i
termination_by (i_end - i).toNat
decreasing_by omega

/-- Guarded variant of vect_find: the outer none signals an out-of-bounds
read, the inner option is the result of vect_find itself (none on an
invalid step, detected before any read). -/
def vect_findChecked (U : List Int) (i_start i_end i_step val : Int) : Option (Option (List Int)) :=
  if i_step % 8 ≠ 0 then some none
  else (vect_loopChecked U val i_end i_step i_start).map some

/-- The strided index list scanned by the loop of find: i_start,
i_start + i_step, ... up to i_end. -/
def steppedRange (i_end i_step : Int) (i : Int) : List Int :=
  if h : 0 < i_step ∧ i ≤ i_end then i :: steppedRange i_end i_step (i + i_step)
  else []
termination_by (i_end + 1 - i).toNat
decreasing_by omega

/-! Arithmetic helpers about euclidean division by a positive divisor. -/

/-- Characterisation of euclidean division by bracketing. -/
theorem ediv_eq_of_bounds (a b q : Int) (hb : 0 < b) (h1 : b * q ≤ a) (h2 : a < b * (q + 1)) :
    a / b = q := by
  have h6 : q ≤ a / b := (Int.le_ediv_iff_mul_le hb).2 (by linarith [mul_comm b q])
  have h7 : a / b < q + 1 := (Int.ediv_lt_iff_lt_mul hb).2 (by linarith [mul_comm b (q + 1)])
  omega

/-- Dividing minus one by a positive number gives minus one. -/
theorem neg_one_ediv {b : Int} (hb : 0 < b) : (-1 : Int) / b = -1 := by
  refine ediv_eq_of_bounds _ _ _ hb (by omega) (by omega)

/-- Dividing c * b - 1 by positive b gives c - 1. -/
theorem mul_sub_one_ediv (c : Int) {b : Int} (hb : 0 < b) : (c * b - 1) / b = c - 1 := by
  have h : c * b - 1 = -1 + c * b := by ring
  rw [h, Int.add_mul_ediv_right _ _ (by omega : b ≠ 0), neg_one_ediv hb]
  ring

/-! Basic theory of the strided index list steppedRange. -/

/-- Number of iterations of the loop of find when the range is empty. -/
theorem stepped_len_neg {i_step : Int} (hst : 0 < i_step) {i_end i : Int} (h : i_end < i) :
    ((i_end - i) / i_step + 1).toNat = 0 := by
  have h1 : (i_end - i) / i_step < 0 := by
    have := (Int.ediv_lt_iff_lt_mul hst (a := i_end - i) (b := 0)).2 (by omega)
    omega
  omega

/-- Canonical form of steppedRange: the image of a range of stride counts. -/
theorem steppedRange_eq_map {i_step : Int} (hst : 0 < i_step) (i_end : Int) (i : Int) :
    steppedRange i_end i_step i =
      (List.range ((i_end - i) / i_step + 1).toNat).map (fun (j : Nat) => i + (j : Int) * i_step) := by
  suffices H : ∀ fuel i, (i_end + 1 - i).toNat ≤ fuel → steppedRange i_end i_step i =
      (List.range ((i_end - i) / i_step + 1).toNat).map (fun (j : Nat) => i + (j : Int) * i_step) from
    H _ i le_rfl
  intro fuel
  induction fuel with
  | zero =>
    intro i hf
    have hlt : i_end < i := by omega
    rw [steppedRange, dif_neg (by omega), stepped_len_neg hst hlt]
    simp
  | succ n ih =>
    intro i hf
    by_cases hg : i ≤ i_end
    · rw [steppedRange, dif_pos ⟨hst, hg⟩, ih (i + i_step) (by omega)]
      have e1 : (i_end - (i + i_step)) / i_step = (i_end - i) / i_step - 1 := by
        have h : i_end - (i + i_step) = (i_end - i) + (-1) * i_step := by ring
        rw [h, Int.add_mul_ediv_right _ _ (by omega : i_step ≠ 0)]
        ring
      have e2 : 0 ≤ (i_end - i) / i_step := Int.ediv_nonneg (by omega) (by omega)
      have e3 : ((i_end - i) / i_step + 1).toNat = ((i_end - (i + i_step)) / i_step + 1).toNat + 1 := by
        omega
      rw [e3, List.range_succ_eq_map]
      simp only [List.map_cons, List.map_map, Nat.cast_zero, zero_mul, add_zero]
      congr 1
      apply List.map_congr_left
      intro a _
      simp only [Function.comp_apply]
      push_cast
      ring
    · have hlt : i_end < i := by omega
      rw [steppedRange, dif_neg (by omega), stepped_len_neg hst hlt]
      simp

/-- Membership in steppedRange: exactly the stride points up to i_end. -/
theorem mem_steppedRange {i_step : Int} (hst : 0 < i_step) {i_end i x : Int} :
    x ∈ steppedRange i_end i_step i ↔ (∃ j : Nat, x = i + (j : Int) * i_step) ∧ x ≤ i_end := by
  rw [steppedRange_eq_map hst, List.mem_map]
  constructor
  · rintro ⟨j, hj, rfl⟩
    refine ⟨⟨j, rfl⟩, ?_⟩
    rw [List.mem_range] at hj
    have h1 : (j : Int) ≤ (i_end - i) / i_step := by omega
    have h2 : (j : Int) * i_step ≤ (i_end - i) / i_step * i_step :=
      mul_le_mul_of_nonneg_right h1 (by omega)
    have h3 := Int.ediv_mul_le (i_end - i) (by omega : i_step ≠ 0)
    omega
  · rintro ⟨⟨j, rfl⟩, hle⟩
    refine ⟨j, ?_, rfl⟩
    rw [List.mem_range]
    have h1 : (j : Int) ≤ (i_end - i) / i_step :=
      (Int.le_ediv_iff_mul_le hst).2 (by omega)
    omega

/-- The scanned index list is strictly ascending. -/
theorem steppedRange_pairwise {i_step : Int} (hst : 0 < i_step) (i_end i : Int) :
    (steppedRange i_end i_step i).Pairwise (· < ·) := by
  rw [steppedRange_eq_map hst]
  refine List.Pairwise.map _ ?_ (List.pairwise_lt_range _)
  intro a b hab
  have h : (a : Int) < (b : Int) := by exact_mod_cast hab
  nlinarith

/-- The scanned index list has no duplicates. -/
theorem steppedRange_nodup {i_step : Int} (hst : 0 < i_step) (i_end i : Int) :
    (steppedRange i_end i_step i).Nodup :=
  (steppedRange_pairwise hst i_end i).imp ne_of_lt

/-- Splitting a strided scan at an aligned point: the scan up to the point
just before i + j * i_step followed by the scan from there. -/
theorem stepped_split {i_step : Int} (hst : 0 < i_step) (i_end i : Int) (j : Nat)
    (hcond : i + (j : Int) * i_step ≤ i_end + i_step) :
    steppedRange (i + (j : Int) * i_step - 1) i_step i ++
      steppedRange i_end i_step (i + (j : Int) * i_step) =
    steppedRange i_end i_step i := by
  induction j generalizing i with
  | zero =>
    simp only [Nat.cast_zero, zero_mul, add_zero]
    have h0 : steppedRange (i - 1) i_step i = [] := by
      rw [steppedRange]
      rw [dif_neg (by omega)]
    rw [h0]
    simp
  | succ n ih =>
    have hn0 : (0 : Int) ≤ (n : Int) := by positivity
    push_cast at hcond ⊢
    have hstep : i ≤ i_end := by nlinarith
    have hfirst : i ≤ i + ((n : Int) + 1) * i_step - 1 := by nlinarith
    have hA : steppedRange (i + ((n : Int) + 1) * i_step - 1) i_step i =
        i :: steppedRange (i + ((n : Int) + 1) * i_step - 1) i_step (i + i_step) := by
      rw [steppedRange]
      rw [dif_pos ⟨hst, hfirst⟩]
    have hB : steppedRange i_end i_step i = i :: steppedRange i_end i_step (i + i_step) := by
      rw [steppedRange]
      rw [dif_pos ⟨hst, hstep⟩]
    rw [hA, hB]
    have harg1 : i + ((n : Int) + 1) * i_step - 1 = (i + i_step) + (n : Int) * i_step - 1 := by ring
    have harg2 : i + ((n : Int) + 1) * i_step = (i + i_step) + (n : Int) * i_step := by ring
    rw [List.cons_append, harg1, harg2]
    congr 1
    refine ih (i + i_step) (by linarith)

/-! The scalar scan as a filter of the strided index list. -/

/-- findLoop keeps exactly the scanned indices whose element equals val. -/
theorem findLoop_eq_filter (U : List Int) (val i_end i_step : Int) (i : Int) :
    findLoop U val i_end i_step i =
      (steppedRange i_end i_step i).filter (fun x => decide (getI U x = val)) := by
  suffices H : ∀ fuel i, (i_end + 1 - i).toNat ≤ fuel → findLoop U val i_end i_step i =
      (steppedRange i_end i_step i).filter (fun x => decide (getI U x = val)) from H _ i le_rfl
  intro fuel
  induction fuel with
  | zero =>
    intro i hf
    have hlt : i_end < i := by omega
    rw [findLoop, dif_neg (by omega), steppedRange, dif_neg (by omega)]
    simp
  | succ n ih =>
    intro i hf
    by_cases hg : 0 < i_step ∧ i ≤ i_end
    · rw [findLoop, dif_pos hg, steppedRange, dif_pos hg, List.filter_cons,
        ih (i + i_step) (by omega)]
      by_cases hv : getI U i = val
      · simp [hv]
      · simp [hv]
    · rw [findLoop, dif_neg hg, steppedRange, dif_neg hg]
      simp

/-- Splitting the unit-stride scalar scan at a cut point. -/
theorem findLoop_split (U : List Int) (val i_end : Int) (i : Int) (j : Nat)
    (hcond : i + (j : Int) ≤ i_end + 1) :
    findLoop U val (i + (j : Int) - 1) 1 i ++ findLoop U val i_end 1 (i + (j : Int)) =
      findLoop U val i_end 1 i := by
  rw [findLoop_eq_filter, findLoop_eq_filter, findLoop_eq_filter, ← List.filter_append]
  congr 1
  have h := stepped_split (by norm_num : (0 : Int) < 1) i_end i j (by omega)
  simpa using h

/-- Elements produced by findLoop are stride points with a matching element. -/
theorem mem_findLoop {U : List Int} {val i_end i_step i x : Int} (hst : 0 < i_step) :
    x ∈ findLoop U val i_end i_step i ↔
      ((∃ j : Nat, x = i + (j : Int) * i_step) ∧ x ≤ i_end ∧ getI U x = val) := by
  rw [findLoop_eq_filter, List.mem_filter, mem_steppedRange hst]
  simp [and_assoc]

/-- The scalar scan output is strictly ascending. -/
theorem findLoop_pairwise (U : List Int) (val i_end i_step : Int) (i : Int) (hst : 0 < i_step) :
    (findLoop U val i_end i_step i).Pairwise (· < ·) := by
  rw [findLoop_eq_filter]
  exact (steppedRange_pairwise hst i_end i).filter _

/-! Reductions of the worker bodies for a constant cancellation flag. -/

/-- With the flag clear throughout, the scalar worker is exactly the loop of
find. -/
theorem scalar_thread_function_false (U : List Int) (val i_end i_step : Int) (i : Int) :
    scalar_thread_function false U val i_end i_step i = findLoop U val i_end i_step i := by
  suffices H : ∀ fuel i, (i_end + 1 - i).toNat ≤ fuel →
      scalar_thread_function false U val i_end i_step i = findLoop U val i_end i_step i from
    H _ i le_rfl
  intro fuel
  induction fuel with
  | zero =>
    intro i hf
    rw [scalar_thread_function, dif_neg (by omega), findLoop, dif_neg (by omega)]
  | succ n ih =>
    intro i hf
    by_cases hg : 0 < i_step ∧ i ≤ i_end
    · rw [scalar_thread_function, dif_pos hg, findLoop, dif_pos hg, if_neg (by simp),
        ih (i + i_step) (by omega)]
    · rw [scalar_thread_function, dif_neg hg, findLoop, dif_neg hg]

/-- With the flag already set on entry, the scalar worker reports nothing. -/
theorem scalar_thread_function_true (U : List Int) (val i_end i_step : Int) (i : Int) :
    scalar_thread_function true U val i_end i_step i = [] := by
  rw [scalar_thread_function]
  split
  · rw [if_pos rfl]
  · rfl

/-- With the flag clear throughout, the vector worker is exactly the loop of
vect_find. -/
theorem vect_thread_function_false (U : List Int) (val i_end i_step : Int) (i : Int) :
    vect_thread_function false U val i_end i_step i = vect_loop U val i_end i_step i := by
  suffices H : ∀ fuel i, (i_end - i).toNat ≤ fuel →
      vect_thread_function false U val i_end i_step i = vect_loop U val i_end i_step i from
    H _ i le_rfl
  intro fuel
  induction fuel with
  | zero =>
    intro i hf
    rw [vect_thread_function, dif_neg (by omega), vect_loop, dif_neg (by omega)]
  | succ n ih =>
    intro i hf
    by_cases hg : 0 < i_step ∧ i + 8 < i_end
    · rw [vect_thread_function, dif_pos hg, vect_loop, dif_pos hg, if_neg (by simp),
        ih (i + i_step) (by omega)]
    · rw [vect_thread_function, dif_neg hg, vect_loop, dif_neg hg]

/-- With the flag already set on entry, the vector worker exits at once from
the block loop, but still runs the whole tail when the block loop is not
entered. -/
theorem vect_thread_function_true (U : List Int) (val i_end i_step : Int) (i : Int) :
    vect_thread_function true U val i_end i_step i =
      if 0 < i_step ∧ i + 8 < i_end then [] else findLoop U val i_end 1 i := by
  rw [vect_thread_function]
  by_cases hg : 0 < i_step ∧ i + 8 < i_end
  · rw [dif_pos hg, if_pos hg, if_pos rfl]
  · rw [dif_neg hg, if_neg hg]

/-! The float comparison agrees with integer equality on exact values. -/

/-- On the floatExact range the SIMD lane comparison is integer equality. -/
theorem laneEq_of_floatExact {x v : Int} (hx : floatExact x) (hv : floatExact v) :
    laneEq x v = decide (x = v) := by
  obtain ⟨hx0, hx1⟩ := hx
  obtain ⟨hv0, hv1⟩ := hv
  have hp23 : (2 : Int) ^ 23 = 8388608 := by norm_num
  rw [hp23] at hx1 hv1
  have hbx : toBits x = x.toNat := by
    unfold toBits
    rw [Int.emod_eq_of_lt hx0 (by norm_num; omega)]
  have hbv : toBits v = v.toNat := by
    unfold toBits
    rw [Int.emod_eq_of_lt hv0 (by norm_num; omega)]
  have hn : ∀ b : Nat, b ≤ 8388608 → isNaNBits b = false := by
    intro b hb
    unfold isNaNBits
    have hA : ((b / 2 ^ 23) % 256 == 255) = false := by
      rw [beq_eq_false_iff_ne]
      have h23 : (2 : Nat) ^ 23 = 8388608 := by norm_num
      rw [h23]
      omega
    rw [hA, Bool.false_and]
  have hz : ∀ b : Nat, b ≤ 8388608 → isZeroBits b = (b == 0) := by
    intro b hb
    unfold isZeroBits
    have h31 : (2 : Nat) ^ 31 = 2147483648 := by norm_num
    rw [h31]
    congr 1
    omega
  unfold laneEq floatEqBits
  rw [hbx, hbv, hn _ (by omega), hn _ (by omega), hz _ (by omega), hz _ (by omega)]
  simp only [Bool.or_self, Bool.false_eq_true, if_false]
  by_cases hxy : x = v
  · subst hxy
    simp
  · have h1 : x.toNat ≠ v.toNat := by omega
    have h2 : (x.toNat == 0 && v.toNat == 0) = false := by
      by_cases hx' : x.toNat = 0
      · have hv' : v.toNat ≠ 0 := by omega
        simp [hx', hv']
      · simp [hx']
    simp [h1, h2, hxy]

/-- A value read from an array of floatExact values is floatExact (the out
of range default 0 included). -/
theorem getI_floatExact {U : List Int} (hU : ∀ x ∈ U, floatExact x) (i : Int) :
    floatExact (getI U i) := by
  have h0 : floatExact 0 := ⟨le_refl 0, by norm_num⟩
  unfold getI
  split
  · by_cases hl : i.toNat < U.length
    · rw [List.getD_eq_getElem U 0 hl]
      exact hU _ (List.getElem_mem hl)
    · rw [List.getD_eq_default U 0 (by omega)]
      exact h0
  · exact h0

/-! The bitmask extraction loop recovers the matching indices of a block. -/

/-- One step of the extraction loop on a mask with low bit b. -/
theorem extractBits_step (b m : Nat) (hb : b ≤ 1) (j : Int) :
    extractBits (b + 2 * m) j = (if b = 1 then [j] else []) ++ extractBits m (j + 1) := by
  by_cases h0 : b + 2 * m = 0
  · have hE : ∀ j' : Int, extractBits 0 j' = [] := by
      intro j'
      rw [extractBits]
      simp
    have hb0 : b = 0 := by omega
    have hm0 : m = 0 := by omega
    rw [hb0, hm0]
    rw [hE, hE]
    simp
  · rw [extractBits, dif_pos h0]
    have h1 : (b + 2 * m) % 2 = b := by omega
    have h2 : (b + 2 * m) / 2 = m := by omega
    rw [h1, h2]

/-- Extracting the n-lane mask at block base i yields exactly the scalar
matches of the index window i .. i+n-1, provided the values are floatExact. -/
theorem extractBits_maskLanes {U : List Int} {val : Int} (hU : ∀ x ∈ U, floatExact x)
    (hval : floatExact val) :
    ∀ (n : Nat) (i : Int), extractBits (maskLanes U val i n) i =
      findLoop U val (i + (n : Int) - 1) 1 i := by
  intro n
  induction n with
  | zero =>
    intro i
    have hE : extractBits 0 i = [] := by
      rw [extractBits]
      simp
    have hF : findLoop U val (i + ((0 : Nat) : Int) - 1) 1 i = [] := by
      rw [findLoop, dif_neg (by push_cast; omega)]
    simp only [maskLanes]
    rw [hE, hF]
  | succ n ih =>
    intro i
    simp only [maskLanes]
    have hb : (if laneEq (getI U i) val then (1 : Nat) else 0) =
        (if getI U i = val then 1 else 0) := by
      rw [laneEq_of_floatExact (getI_floatExact hU i) hval]
      by_cases hv : getI U i = val
      · simp [hv]
      · simp [hv]
    rw [hb, extractBits_step _ _ (by split <;> omega) i, ih (i + 1)]
    have hR : findLoop U val (i + ((n : Nat) + 1 : Int) - 1) 1 i =
        (if getI U i = val then [i] else []) ++
          findLoop U val (i + ((n : Nat) + 1 : Int) - 1) 1 (i + 1) := by
      rw [findLoop, dif_pos ⟨by norm_num, by omega⟩]
    have harg : i + 1 + ((n : Nat) : Int) - 1 = i + ((n : Nat) + 1 : Int) - 1 := by ring
    rw [harg]
    push_cast at hR ⊢
    rw [hR]
    congr 1
    by_cases hv : getI U i = val
    · simp [hv]
    · simp [hv]

/-- For step 8 the vector scan visits every index of the range: it equals
the scalar scan with step 1 on floatExact data. -/
theorem vect_loop_eq_scalar {U : List Int} {val : Int} (hU : ∀ x ∈ U, floatExact x)
    (hval : floatExact val) (i_end : Int) :
    ∀ i, vect_loop U val i_end 8 i = findLoop U val i_end 1 i := by
  suffices H : ∀ fuel i, (i_end - i).toNat ≤ fuel →
      vect_loop U val i_end 8 i = findLoop U val i_end 1 i from fun i => H _ i le_rfl
  intro fuel
  induction fuel with
  | zero =>
    intro i hf
    rw [vect_loop, dif_neg (by omega)]
  | succ n ih =>
    intro i hf
    by_cases hg : i + 8 < i_end
    · rw [vect_loop, dif_pos ⟨by norm_num, hg⟩, ih (i + 8) (by omega),
        extractBits_maskLanes hU hval 8 i]
      have h := findLoop_split U val i_end i 8 (by push_cast; omega)
      push_cast at h ⊢
      exact h
    · rw [vect_loop, dif_neg (by omega)]

/-- The vector implementation with step 8 computes the scalar full scan. -/
theorem vect_find_eq_scalar (U : List Int) (i_start i_end val : Int)
    (hU : ∀ x ∈ U, floatExact x) (hval : floatExact val) :
    vect_find U i_start i_end 8 val = some (find U i_start i_end 1 val) := by
  unfold vect_find find
  rw [if_neg (by norm_num), vect_loop_eq_scalar hU hval]

/-! The segment planner of thread_find. -/

/-- On a nonempty range the stride count is the euclidean quotient plus one. -/
theorem stride_count_eq (i_start i_end i_step : Int) (hst : 0 < i_step) (hse : i_start ≤ i_end) :
    stride_count i_start i_end i_step = (i_end - i_start) / i_step + 1 := by
  unfold stride_count
  rw [Int.tdiv_eq_ediv (by omega) (by omega)]

/-- On a nonempty range there is at least one stride. -/
theorem stride_count_pos (i_start i_end i_step : Int) (hst : 0 < i_step) (hse : i_start ≤ i_end) :
    1 ≤ stride_count i_start i_end i_step := by
  rw [stride_count_eq i_start i_end i_step hst hse]
  have h := Int.ediv_nonneg (by omega : (0:Int) ≤ i_end - i_start) (by omega : (0:Int) ≤ i_step)
  omega

/-- Segment starts with euclidean instead of truncating division. -/
theorem seg_i_start_eq (i_start i_end i_step : Int) (hst : 0 < i_step) (hse : i_start ≤ i_end)
    (t : Nat) :
    seg_i_start i_start i_end i_step t =
      ((t : Int) * stride_count i_start i_end i_step) / 8 * i_step + i_start := by
  have hM := stride_count_pos i_start i_end i_step hst hse
  unfold seg_i_start
  rw [Int.tdiv_eq_ediv (by positivity) (by norm_num)]

/-- Each segment ends right before the next one starts. -/
theorem seg_end_succ (i_start i_end i_step : Int) (t : Nat) :
    seg_i_end i_start i_end i_step t = seg_i_start i_start i_end i_step (t + 1) - 1 := by
  unfold seg_i_start seg_i_end
  push_cast
  ring

/-- The first segment starts at the start of the whole range. -/
theorem seg_i_start_zero (i_start i_end i_step : Int) :
    seg_i_start i_start i_end i_step 0 = i_start := by
  unfold seg_i_start
  norm_num

/-- Right after the last segment all strides are exhausted. -/
theorem seg_i_start_eight (i_start i_end i_step : Int) (hst : 0 < i_step) (hse : i_start ≤ i_end) :
    seg_i_start i_start i_end i_step 8 =
      stride_count i_start i_end i_step * i_step + i_start := by
  have hM := stride_count_pos i_start i_end i_step hst hse
  unfold seg_i_start
  rw [Int.tdiv_eq_ediv (by positivity) (by norm_num)]
  rw [show ((8 : Nat) : Int) = 8 from rfl, Int.mul_ediv_cancel_left _ (by norm_num : (8:Int) ≠ 0)]

/-- Segment starts are aligned on the stride grid and non-decreasing. -/
theorem seg_align (i_start i_end i_step : Int) (hst : 0 < i_step) (hse : i_start ≤ i_end)
    (t : Nat) :
    ∃ j : Nat, seg_i_start i_start i_end i_step (t + 1) =
      seg_i_start i_start i_end i_step t + (j : Int) * i_step := by
  have hM := stride_count_pos i_start i_end i_step hst hse
  have hmono : ((t : Int) * stride_count i_start i_end i_step) / 8 ≤
      (((t : Int) + 1) * stride_count i_start i_end i_step) / 8 := by
    refine Int.ediv_le_ediv (by norm_num) ?_
    nlinarith
  refine ⟨((((t : Int) + 1) * stride_count i_start i_end i_step) / 8 -
      ((t : Int) * stride_count i_start i_end i_step) / 8).toNat, ?_⟩
  rw [seg_i_start_eq i_start i_end i_step hst hse, seg_i_start_eq i_start i_end i_step hst hse]
  rw [Int.toNat_of_nonneg (by omega)]
  push_cast
  ring

/-- Concatenating consecutive aligned strided scans gives the whole scan. -/
theorem join_chain (A : Nat → Int) (st : Int) (hst : 0 < st) :
    ∀ N, (∀ t, t < N → ∃ j : Nat, A (t + 1) = A t + (j : Int) * st) →
    ((List.range N).map fun t => steppedRange (A (t + 1) - 1) st (A t)).flatten =
      steppedRange (A N - 1) st (A 0) := by
  intro N
  induction N with
  | zero =>
    intro h
    simp only [List.range_zero, List.map_nil, List.flatten_nil]
    rw [steppedRange, dif_neg (by omega)]
  | succ N ih =>
    intro h
    have hchain : ∀ t, t < N → ∃ j : Nat, A (t + 1) = A t + (j : Int) * st :=
      fun t ht => h t (by omega)
    have haccum : ∀ t, t ≤ N → ∃ J : Nat, A t = A 0 + (J : Int) * st := by
      intro t
      induction t with
      | zero => intro _; exact ⟨0, by simp⟩
      | succ m ihm =>
        intro hm
        obtain ⟨J, hJ⟩ := ihm (by omega)
        obtain ⟨j, hj⟩ := h m (by omega)
        refine ⟨J + j, ?_⟩
        rw [hj, hJ]
        push_cast
        ring
    obtain ⟨J, hJ⟩ := haccum N (by omega)
    obtain ⟨j, hj⟩ := h N (by omega)
    have hjst : (0 : Int) ≤ (j : Int) * st := mul_nonneg (by positivity) hst.le
    rw [List.range_succ, List.map_append, List.flatten_append, ih hchain]
    simp only [List.map_cons, List.map_nil, List.flatten_cons, List.flatten_nil, List.append_nil]
    have hcond : A 0 + (J : Int) * st ≤ (A (N + 1) - 1) + st := by
      rw [← hJ]
      linarith [hj]
    have h2 := stepped_split hst (A (N + 1) - 1) (A 0) J hcond
    rw [← hJ] at h2
    exact h2

/-- Partition completeness at the index level: the eight planned segments
scan, between them, exactly the strided index list of the whole range. -/
theorem partition_stepped (i_start i_end i_step : Int) (hst : 0 < i_step) (hse : i_start ≤ i_end) :
    ((List.range 8).map fun t =>
      steppedRange (seg_i_end i_start i_end i_step t) i_step
        (seg_i_start i_start i_end i_step t)).flatten =
      steppedRange i_end i_step i_start := by
  have hmap : ((List.range 8).map fun t =>
      steppedRange (seg_i_end i_start i_end i_step t) i_step
        (seg_i_start i_start i_end i_step t)) =
      ((List.range 8).map fun t =>
        steppedRange (seg_i_start i_start i_end i_step (t + 1) - 1) i_step
          (seg_i_start i_start i_end i_step t)) := by
    apply List.map_congr_left
    intro t _
    rw [seg_end_succ]
  rw [hmap, join_chain (fun t => seg_i_start i_start i_end i_step t) i_step hst 8
    (fun t _ => seg_align i_start i_end i_step hst hse t)]
  rw [seg_i_start_zero, seg_i_start_eight i_start i_end i_step hst hse]
  have hM := stride_count_pos i_start i_end i_step hst hse
  rw [steppedRange_eq_map hst, steppedRange_eq_map hst]
  congr 2
  rw [show stride_count i_start i_end i_step * i_step + i_start - 1 - i_start =
    stride_count i_start i_end i_step * i_step - 1 by ring]
  rw [mul_sub_one_ediv _ hst, stride_count_eq i_start i_end i_step hst hse]
  ring_nf

/-- Any index scanned inside a planned segment is scanned by the full range. -/
theorem seg_mem_global (i_start i_end i_step : Int) (hst : 0 < i_step) (hse : i_start ≤ i_end)
    {t : Nat} (ht : t < 8) {x : Int}
    (hx : x ∈ steppedRange (seg_i_end i_start i_end i_step t) i_step
      (seg_i_start i_start i_end i_step t)) :
    x ∈ steppedRange i_end i_step i_start := by
  rw [← partition_stepped i_start i_end i_step hst hse]
  rw [List.mem_flatten]
  refine ⟨_, List.mem_map.2 ⟨t, List.mem_range.2 ht, rfl⟩, hx⟩

/-! Worker runs over their segments. -/

/-- Every complete worker run is empty or a scalar scan of its segment, with
the unit step for the vectorized strategy on floatExact data. -/
theorem seg_run_cases (ver : Int) (stop0 : Bool) (U : List Int) (i_start i_end i_step val : Int)
    (t : Nat)
    (hver : ver = 0 ∨ (ver = 1 ∧ i_step = 8 ∧ (∀ x ∈ U, floatExact x) ∧ floatExact val)) :
    seg_run ver stop0 U i_start i_end i_step val t = [] ∨
    (ver = 0 ∧ seg_run ver stop0 U i_start i_end i_step val t =
      findLoop U val (seg_i_end i_start i_end i_step t) i_step
        (seg_i_start i_start i_end i_step t)) ∨
    (ver = 1 ∧ seg_run ver stop0 U i_start i_end i_step val t =
      findLoop U val (seg_i_end i_start i_end i_step t) 1
        (seg_i_start i_start i_end i_step t)) := by
  rcases hver with h0 | ⟨h1, h8, hU, hval⟩
  · subst h0
    unfold seg_run
    rw [if_pos rfl]
    cases stop0 with
    | false => exact Or.inr (Or.inl ⟨rfl, scalar_thread_function_false U val _ _ _⟩)
    | true => exact Or.inl (scalar_thread_function_true U val _ _ _)
  · subst h1
    subst h8
    unfold seg_run
    rw [if_neg (by norm_num)]
    cases stop0 with
    | false =>
      refine Or.inr (Or.inr ⟨rfl, ?_⟩)
      rw [vect_thread_function_false, vect_loop_eq_scalar hU hval]
    | true =>
      rw [vect_thread_function_true]
      split
      · exact Or.inl rfl
      · exact Or.inr (Or.inr ⟨rfl, rfl⟩)

/-- Bounds of membership in a strided scan. -/
theorem mem_stepped_bounds {i_step i_end i x : Int} (hst : 0 < i_step)
    (hx : x ∈ steppedRange i_end i_step i) : i ≤ x ∧ x ≤ i_end := by
  rw [mem_steppedRange hst] at hx
  obtain ⟨⟨j, rfl⟩, hle⟩ := hx
  have hj : (0 : Int) ≤ (j : Int) * i_step := mul_nonneg (by positivity) hst.le
  exact ⟨by linarith, hle⟩

/-- Every complete worker run is strictly ascending. -/
theorem seg_run_pairwise (ver : Int) (stop0 : Bool) (U : List Int)
    (i_start i_end i_step val : Int) (t : Nat) (hst : 0 < i_step)
    (hver : ver = 0 ∨ (ver = 1 ∧ i_step = 8 ∧ (∀ x ∈ U, floatExact x) ∧ floatExact val)) :
    (seg_run ver stop0 U i_start i_end i_step val t).Pairwise (· < ·) := by
  rcases seg_run_cases ver stop0 U i_start i_end i_step val t hver with h | ⟨_, h⟩ | ⟨_, h⟩ <;>
    rw [h]
  · exact List.Pairwise.nil
  · exact findLoop_pairwise U val _ _ _ hst
  · exact findLoop_pairwise U val _ _ _ (by norm_num)

/-- Every index in a complete worker run lies in its segment and matches. -/
theorem mem_seg_run (ver : Int) (stop0 : Bool) (U : List Int)
    (i_start i_end i_step val : Int) (t : Nat) (hst : 0 < i_step)
    (hver : ver = 0 ∨ (ver = 1 ∧ i_step = 8 ∧ (∀ x ∈ U, floatExact x) ∧ floatExact val))
    {x : Int} (hx : x ∈ seg_run ver stop0 U i_start i_end i_step val t) :
    seg_i_start i_start i_end i_step t ≤ x ∧ x ≤ seg_i_end i_start i_end i_step t ∧
      getI U x = val ∧
      (ver = 0 → x ∈ steppedRange (seg_i_end i_start i_end i_step t) i_step
        (seg_i_start i_start i_end i_step t)) := by
  rcases seg_run_cases ver stop0 U i_start i_end i_step val t hver with h | ⟨_, h⟩ | ⟨hv1, h⟩ <;>
    rw [h] at hx
  · cases hx
  · rw [findLoop_eq_filter, List.mem_filter] at hx
    obtain ⟨hmem, hval'⟩ := hx
    obtain ⟨hlo, hhi⟩ := mem_stepped_bounds hst hmem
    exact ⟨hlo, hhi, by simpa using hval', fun _ => hmem⟩
  · rw [findLoop_eq_filter, List.mem_filter] at hx
    obtain ⟨hmem, hval'⟩ := hx
    obtain ⟨hlo, hhi⟩ := mem_stepped_bounds (by norm_num : (0:Int) < 1) hmem
    refine ⟨hlo, hhi, by simpa using hval', fun h0 => ?_⟩
    omega

/-- Segment starts never decrease. -/
theorem seg_i_start_mono (i_start i_end i_step : Int) (hst : 0 < i_step) (hse : i_start ≤ i_end)
    {t u : Nat} (htu : t ≤ u) :
    seg_i_start i_start i_end i_step t ≤ seg_i_start i_start i_end i_step u := by
  have hM := stride_count_pos i_start i_end i_step hst hse
  rw [seg_i_start_eq i_start i_end i_step hst hse, seg_i_start_eq i_start i_end i_step hst hse]
  have h1 : (t : Int) * stride_count i_start i_end i_step ≤
      (u : Int) * stride_count i_start i_end i_step := by
    have : (t : Int) ≤ (u : Int) := by exact_mod_cast htu
    nlinarith
  have h2 := Int.ediv_le_ediv (by norm_num : (0:Int) < 8) h1
  nlinarith

/-- Earlier segments end strictly before later segments start. -/
theorem seg_lt (i_start i_end i_step : Int) (hst : 0 < i_step) (hse : i_start ≤ i_end)
    {t u : Nat} (htu : t < u) :
    seg_i_end i_start i_end i_step t < seg_i_start i_start i_end i_step u := by
  rw [seg_end_succ]
  have := seg_i_start_mono i_start i_end i_step hst hse (show t + 1 ≤ u by omega)
  omega

/-- The last segment never ends beyond the end of the planned stride grid. -/
theorem seg_i_end_le (i_start i_end i_step : Int) (hst : 0 < i_step) (hse : i_start ≤ i_end)
    {t : Nat} (ht : t < 8) :
    seg_i_end i_start i_end i_step t ≤
      stride_count i_start i_end i_step * i_step + i_start - 1 := by
  rw [seg_end_succ, ← seg_i_start_eight i_start i_end i_step hst hse]
  have := seg_i_start_mono i_start i_end i_step hst hse (show t + 1 ≤ 8 by omega)
  omega

/-! Reductions of the dispatcher relation thread_find_rel. -/

/-- The validation switch accepts exactly ver 0, and ver 1 with a step that
is a multiple of 8. -/
theorem thread_find_ok_iff (i_step ver : Int) :
    thread_find_ok i_step ver = true ↔ (ver = 0 ∨ (ver = 1 ∧ i_step % 8 = 0)) := by
  unfold thread_find_ok
  simp

/-- With no threshold every worker runs to completion and nothing is
trimmed: the result is forced to be the concatenation of the full runs. -/
theorem thread_find_rel_unthresholded {U : List Int} {i_start i_end i_step val k ver : Int}
    {stop0 : Bool} {res : Option (List Int)} (hk : k < 0)
    (hok : thread_find_ok i_step ver = true)
    (hrel : thread_find_rel U i_start i_end i_step val k ver stop0 res) :
    res = some (((List.range 8).map fun t =>
      seg_run ver stop0 U i_start i_end i_step val t).flatten) := by
  unfold thread_find_rel at hrel
  rw [if_pos hok] at hrel
  obtain ⟨cut, hdisj, hres⟩ := hrel
  rcases hdisj with hfull | ⟨hk0, _⟩
  · have houts : worker_outs ver stop0 U i_start i_end i_step val cut =
        (List.range 8).map fun t => seg_run ver stop0 U i_start i_end i_step val t := by
      unfold worker_outs
      apply List.map_congr_left
      intro t ht
      exact List.take_of_length_le (hfull t (List.mem_range.1 ht))
    rw [hres, houts]
    unfold assemble
    rw [if_neg (by omega)]
  · omega

/-- The total output never exceeds the total of the complete runs. -/
theorem worker_outs_length_le (ver : Int) (stop0 : Bool) (U : List Int)
    (i_start i_end i_step val : Int) (cut : Nat → Nat) :
    (worker_outs ver stop0 U i_start i_end i_step val cut).flatten.length ≤
      ((List.range 8).map fun t =>
        seg_run ver stop0 U i_start i_end i_step val t).flatten.length := by
  rw [List.length_flatten, List.length_flatten]
  unfold worker_outs
  rw [List.map_map, List.map_map]
  apply List.sum_le_sum
  intro t _
  simp only [Function.comp_apply]
  rw [List.length_take]
  omega

/-- Length of the trimmed aggregate for a non-negative threshold. -/
theorem assemble_length {k : Int} (all : List Int) (hk : 0 ≤ k) :
    ((assemble k all).length : Int) = min ((all.length : Int)) k := by
  unfold assemble
  by_cases h : 0 ≤ k ∧ k < (all.length : Int)
  · rw [if_pos h, List.length_take]
    have : (min k.toNat all.length : Int) = min ((k.toNat : Int)) ((all.length : Int)) := by
      exact_mod_cast Nat.cast_min ..
    omega
  · rw [if_neg h]
    omega

/-- Filtering distributes over flattening. -/
theorem flatten_map_filter {α : Type} (p : α → Bool) (L : List (List α)) :
    (L.map (List.filter p)).flatten = L.flatten.filter p := by
  induction L with
  | nil => rfl
  | cons l L ih => simp only [List.map_cons, List.flatten_cons, List.filter_append, ih]

/-- With the scalar strategy and a clear flag, the complete worker runs
concatenate to the single-threaded scan find. -/
theorem workers_flatten_scalar (U : List Int) (i_start i_end i_step val : Int)
    (hst : 0 < i_step) (hse : i_start ≤ i_end) :
    ((List.range 8).map fun t => seg_run 0 false U i_start i_end i_step val t).flatten =
      find U i_start i_end i_step val := by
  have h1 : ∀ t : Nat, seg_run 0 false U i_start i_end i_step val t =
      ((fun t => steppedRange (seg_i_end i_start i_end i_step t) i_step
        (seg_i_start i_start i_end i_step t)) t).filter (fun x => decide (getI U x = val)) := by
    intro t
    unfold seg_run
    rw [if_pos rfl, scalar_thread_function_false, findLoop_eq_filter]
  rw [List.map_congr_left fun t _ => h1 t]
  have h2 : (List.range 8).map (fun t =>
      ((fun t => steppedRange (seg_i_end i_start i_end i_step t) i_step
        (seg_i_start i_start i_end i_step t)) t).filter (fun x => decide (getI U x = val))) =
      ((List.range 8).map fun t => steppedRange (seg_i_end i_start i_end i_step t) i_step
        (seg_i_start i_start i_end i_step t)).map (List.filter (fun x => decide (getI U x = val))) := by
    rw [List.map_map]
    rfl
  rw [h2, flatten_map_filter, partition_stepped i_start i_end i_step hst hse]
  unfold find
  rw [findLoop_eq_filter]

/-- When the range length is a multiple of 8, the planned stride grid for
step 8 ends exactly at the end of the range. -/
theorem stride_grid_end (i_start i_end : Int) (hse : i_start ≤ i_end)
    (hr : (i_end - i_start) % 8 = 7) :
    stride_count i_start i_end 8 * 8 + i_start - 1 = i_end := by
  rw [stride_count_eq i_start i_end 8 (by norm_num) hse]
  have h := Int.ediv_add_emod (i_end - i_start) 8
  omega

/-- With the vectorized strategy, step 8, a clear flag, a range whose length
is a multiple of 8 and floatExact data, the complete worker runs concatenate
to the unit-step single-threaded scan. -/
theorem workers_flatten_vect (U : List Int) (i_start i_end val : Int)
    (hse : i_start ≤ i_end) (hr : (i_end - i_start) % 8 = 7)
    (hU : ∀ x ∈ U, floatExact x) (hval : floatExact val) :
    ((List.range 8).map fun t => seg_run 1 false U i_start i_end 8 val t).flatten =
      find U i_start i_end 1 val := by
  have hst8 : (0 : Int) < 8 := by norm_num
  have h1 : ∀ t : Nat, seg_run 1 false U i_start i_end 8 val t =
      ((fun t => steppedRange (seg_i_end i_start i_end 8 t) 1
        (seg_i_start i_start i_end 8 t)) t).filter (fun x => decide (getI U x = val)) := by
    intro t
    unfold seg_run
    rw [if_neg (by norm_num), vect_thread_function_false, vect_loop_eq_scalar hU hval,
      findLoop_eq_filter]
  rw [List.map_congr_left fun t _ => h1 t]
  have h2 : (List.range 8).map (fun t =>
      ((fun t => steppedRange (seg_i_end i_start i_end 8 t) 1
        (seg_i_start i_start i_end 8 t)) t).filter (fun x => decide (getI U x = val))) =
      ((List.range 8).map fun t => steppedRange (seg_i_end i_start i_end 8 t) 1
        (seg_i_start i_start i_end 8 t)).map (List.filter (fun x => decide (getI U x = val))) := by
    rw [List.map_map]
    rfl
  rw [h2, flatten_map_filter]
  have hmap : ((List.range 8).map fun t =>
      steppedRange (seg_i_end i_start i_end 8 t) 1 (seg_i_start i_start i_end 8 t)) =
      ((List.range 8).map fun t =>
        steppedRange (seg_i_start i_start i_end 8 (t + 1) - 1) 1
          (seg_i_start i_start i_end 8 t)) := by
    apply List.map_congr_left
    intro t _
    rw [seg_end_succ]
  have halign : ∀ t, t < 8 → ∃ j : Nat,
      seg_i_start i_start i_end 8 (t + 1) = seg_i_start i_start i_end 8 t + (j : Int) * 1 := by
    intro t _
    obtain ⟨j, hj⟩ := seg_align i_start i_end 8 hst8 hse t
    exact ⟨8 * j, by rw [hj]; push_cast; ring⟩
  rw [hmap, join_chain (fun t => seg_i_start i_start i_end 8 t) 1 (by norm_num) 8 halign,
    seg_i_start_zero, seg_i_start_eight i_start i_end 8 hst8 hse]
  rw [show stride_count i_start i_end 8 * 8 + i_start - 1 =
    i_end from stride_grid_end i_start i_end hse hr]
  unfold find
  rw [findLoop_eq_filter]

/-! Guarded reads succeed under the bounds precondition. -/

/-- A guarded read inside the array bounds succeeds. -/
theorem getE_eq {U : List Int} {i : Int} (h0 : 0 ≤ i) (hlt : i < (U.length : Int)) :
    getE U i = some (getI U i) := by
  unfold getE
  rw [if_pos ⟨h0, hlt⟩]

/-- The guarded scalar loop performs no out-of-bounds read when the range
sits inside the array. -/
theorem findLoopChecked_eq (U : List Int) (val i_end i_step : Int)
    (hlen : i_end < (U.length : Int)) (hst : 0 < i_step) :
    ∀ i, 0 ≤ i → findLoopChecked U val i_end i_step i = some (findLoop U val i_end i_step i) := by
  suffices H : ∀ fuel i, (i_end + 1 - i).toNat ≤ fuel → 0 ≤ i →
      findLoopChecked U val i_end i_step i = some (findLoop U val i_end i_step i) from
    fun i hi => H _ i le_rfl hi
  intro fuel
  induction fuel with
  | zero =>
    intro i hf h0
    rw [findLoopChecked, dif_neg (by omega), findLoop, dif_neg (by omega)]
  | succ n ih =>
    intro i hf h0
    by_cases hg : i ≤ i_end
    · rw [findLoopChecked, dif_pos ⟨hst, hg⟩, findLoop, dif_pos ⟨hst, hg⟩,
        getE_eq h0 (by omega), ih (i + i_step) (by omega) (by omega)]
      rfl
    · rw [findLoopChecked, dif_neg (by omega), findLoop, dif_neg (by omega)]

/-- The guarded vector load of n lanes at base i succeeds when the lanes sit
inside the array. -/
theorem maskLanesChecked_eq (U : List Int) (val : Int) :
    ∀ (n : Nat) (i : Int), 0 ≤ i → i + (n : Int) ≤ (U.length : Int) →
      maskLanesChecked U val i n = some (maskLanes U val i n) := by
  intro n
  induction n with
  | zero => intro i _ _; rfl
  | succ n ih =>
    intro i h0 hlen
    push_cast at hlen
    simp only [maskLanesChecked, maskLanes]
    rw [getE_eq h0 (by omega), ih (i + 1) (by omega) (by omega)]
    rfl

/-- The guarded vector loop performs no out-of-bounds read when the range
sits inside the array. -/
theorem vect_loopChecked_eq (U : List Int) (val i_end i_step : Int)
    (hlen : i_end < (U.length : Int)) (hst : 0 < i_step) :
    ∀ i, 0 ≤ i → vect_loopChecked U val i_end i_step i = some (vect_loop U val i_end i_step i) := by
  suffices H : ∀ fuel i, (i_end - i).toNat ≤ fuel → 0 ≤ i →
      vect_loopChecked U val i_end i_step i = some (vect_loop U val i_end i_step i) from
    fun i hi => H _ i le_rfl hi
  intro fuel
  induction fuel with
  | zero =>
    intro i hf h0
    rw [vect_loopChecked, dif_neg (by omega), vect_loop, dif_neg (by omega)]
    exact findLoopChecked_eq U val i_end 1 hlen (by norm_num) i h0
  | succ n ih =>
    intro i hf h0
    by_cases hg : i + 8 < i_end
    · rw [vect_loopChecked, dif_pos ⟨hst, hg⟩, vect_loop, dif_pos ⟨hst, hg⟩,
        maskLanesChecked_eq U val 8 i h0 (by push_cast; omega),
        ih (i + i_step) (by omega) (by omega)]
      rfl
    · rw [vect_loopChecked, dif_neg (by omega), vect_loop, dif_neg (by omega)]
      exact findLoopChecked_eq U val i_end 1 hlen (by norm_num) i h0

/-- C10: under the caller contract 0 <= i_start and i_end < length, every
array element read by find and by vect_find lies inside the array: the
bounds-checked variants never take the out-of-bounds branch and agree with
the unchecked functions. -/
theorem c10_no_out_of_bounds_reads (U : List Int) (i_start i_end i_step val : Int)
    (h0 : 0 ≤ i_start) (hlen : i_end < (U.length : Int)) (hst : 0 < i_step) :
    findChecked U i_start i_end i_step val = some (find U i_start i_end i_step val) ∧
    vect_findChecked U i_start i_end i_step val = some (vect_find U i_start i_end i_step val) := by
  constructor
  · unfold findChecked find
    exact findLoopChecked_eq U val i_end i_step hlen hst i_start h0
  · unfold vect_findChecked vect_find
    by_cases hm : i_step % 8 ≠ 0
    · rw [if_pos hm, if_pos hm]
    · rw [if_neg hm, if_neg hm, vect_loopChecked_eq U val i_end i_step hlen hst i_start h0]
      rfl

/-- C10 witness at a concrete input. -/
theorem c10_witness :
    findChecked [5, 2, 5, 5, 1, 5] 0 5 1 5 = some (find [5, 2, 5, 5, 1, 5] 0 5 1 5) ∧
    vect_findChecked [5, 2, 5, 5, 1, 5] 0 5 8 5 =
      some (vect_find [5, 2, 5, 5, 1, 5] 0 5 8 5) :=
  ⟨(c10_no_out_of_bounds_reads [5, 2, 5, 5, 1, 5] 0 5 1 5 (by norm_num) (by decide)
      (by norm_num)).1,
    (c10_no_out_of_bounds_reads [5, 2, 5, 5, 1, 5] 0 5 8 5 (by norm_num) (by decide)
      (by norm_num)).2⟩

/-- C4: the scalar find scans exactly the stride points of the range,
returns the matching positions in strictly ascending order, and every
returned index is a valid array index holding the target value (the
returned count is the length of the returned list). -/
theorem c4_scalar_find_contract (U : List Int) (i_start i_end i_step val : Int)
    (hst : 0 < i_step) (h0 : 0 ≤ i_start) (hlen : i_end < (U.length : Int)) :
    (∀ i : Int, i ∈ find U i_start i_end i_step val ↔
      ((∃ j : Nat, i = i_start + (j : Int) * i_step) ∧ i ≤ i_end ∧ getI U i = val)) ∧
    (find U i_start i_end i_step val).Pairwise (· < ·) ∧
    (∀ i ∈ find U i_start i_end i_step val,
      0 ≤ i ∧ i < (U.length : Int) ∧ getI U i = val) := by
  refine ⟨?_, ?_, ?_⟩
  · intro i
    unfold find
    rw [mem_findLoop hst]
  · unfold find
    exact findLoop_pairwise U val _ _ _ hst
  · intro i hi
    unfold find at hi
    rw [mem_findLoop hst] at hi
    obtain ⟨⟨j, rfl⟩, hle, hv⟩ := hi
    have hj : (0 : Int) ≤ (j : Int) * i_step := mul_nonneg (by positivity) hst.le
    exact ⟨by omega, by omega, hv⟩

/-- C4 witness at a concrete input. -/
theorem c4_witness : (2 : Int) ∈ find [5, 2, 5, 5, 1, 5] 0 5 1 5 :=
  ((c4_scalar_find_contract [5, 2, 5, 5, 1, 5] 0 5 1 5 (by norm_num) (by norm_num)
    (by decide)).1 2).mpr ⟨⟨2, by norm_num⟩, by norm_num, by decide⟩

/-- C5 counterexample: with the step 8 that is valid for both strategies,
vect_find scans the whole contiguous range (8 lanes per stride) while find
visits only every eighth index, so the two sets of indices differ. -/
theorem c5_counterexample :
    vect_find [0, 5] 0 1 8 5 = some [1] ∧ find [0, 5] 0 1 8 5 = [] ∧
      ¬ (∀ i : Int, i ∈ [(1 : Int)] ↔ i ∈ ([] : List Int)) := by
  refine ⟨?_, ?_, fun h => (by decide : ¬ (1 : Int) ∈ ([] : List Int)) ((h 1).mp (by decide))⟩
  · unfold vect_find
    rw [if_neg (by decide), vect_loop, dif_neg (by decide),
      findLoop_eq_filter, steppedRange_eq_map (by norm_num)]
    decide
  · unfold find
    rw [findLoop_eq_filter, steppedRange_eq_map (by norm_num)]
    decide

/-- C5 (amended): restricted to the step equal to the vector width 8 and to
values on which the float lane comparison is exact, vect_find over a range
returns exactly the indices that the scalar find visits with step 1 (the
vectorized step counts array cells, not strides: each stride covers its 8
lanes, so step 8 is a full contiguous scan). -/
theorem c5_vect_equals_unit_step_scalar (U : List Int) (i_start i_end val : Int)
    (hU : ∀ x ∈ U, floatExact x) (hval : floatExact val) :
    vect_find U i_start i_end 8 val = some (find U i_start i_end 1 val) :=
  vect_find_eq_scalar U i_start i_end val hU hval

/-- Values with small non-negative magnitude are floatExact. -/
theorem floatExact_small {v : Int} (h1 : 0 ≤ v) (h2 : v ≤ 8388608) : floatExact v := by
  unfold floatExact
  have h : (2 : Int) ^ 23 = 8388608 := by norm_num
  omega

/-- C5 witness at a concrete input. -/
theorem c5_witness : vect_find [5, 2, 5] 0 2 8 5 = some (find [5, 2, 5] 0 2 1 5) :=
  c5_vect_equals_unit_step_scalar [5, 2, 5] 0 2 5
    (by intro x hx; simp only [List.mem_cons, List.not_mem_nil, or_false] at hx
        rcases hx with rfl | rfl | rfl <;> exact floatExact_small (by norm_num) (by norm_num))
    (floatExact_small (by norm_num) (by norm_num))

/-- C9: thread_find fails with the explicit invalid-argument result (none,
modelling the early return -1 before any thread starts or any work is done)
exactly when the vectorized strategy is selected with a step that is not a
multiple of 8, or the strategy selector is neither 0 nor 1; and vect_find
returns its invalid-step indication exactly when the step is not a multiple
of 8, before scanning anything. -/
theorem c9_validation (U : List Int) (i_start i_end i_step val k ver : Int) (stop0 : Bool)
    (res : Option (List Int))
    (hrel : thread_find_rel U i_start i_end i_step val k ver stop0 res) :
    (res = none ↔ ((ver = 1 ∧ i_step % 8 ≠ 0) ∨ (ver ≠ 0 ∧ ver ≠ 1))) ∧
    (vect_find U i_start i_end i_step val = none ↔ i_step % 8 ≠ 0) := by
  constructor
  · unfold thread_find_rel at hrel
    by_cases hok : thread_find_ok i_step ver = true
    · rw [if_pos hok] at hrel
      obtain ⟨cut, _, hres⟩ := hrel
      rw [hres]
      have h := (thread_find_ok_iff i_step ver).1 hok
      constructor
      · intro hcontra
        cases hcontra
      · intro hbad
        exfalso
        rcases h with h0 | ⟨h1, hm⟩ <;> rcases hbad with ⟨ha, hb⟩ | ⟨ha, hb⟩ <;> omega
    · rw [if_neg hok] at hrel
      rw [hrel]
      have h : ¬ (ver = 0 ∨ (ver = 1 ∧ i_step % 8 = 0)) :=
        fun hcon => hok ((thread_find_ok_iff i_step ver).2 hcon)
      constructor
      · intro _
        by_cases hv1 : ver = 1
        · exact Or.inl ⟨hv1, fun hm => h (Or.inr ⟨hv1, hm⟩)⟩
        · exact Or.inr ⟨fun h0 => h (Or.inl h0), hv1⟩
      · intro _
        rfl
  · unfold vect_find
    by_cases hm : i_step % 8 ≠ 0
    · rw [if_pos hm]
      simp [hm]
    · rw [if_neg hm]
      simp [hm]

/-- C9 witness at a concrete input: strategy selector 2 is rejected. -/
theorem c9_witness :
    ((none : Option (List Int)) = none ↔
      (((2 : Int) = 1 ∧ (1 : Int) % 8 ≠ 0) ∨ ((2 : Int) ≠ 0 ∧ (2 : Int) ≠ 1))) ∧
    (vect_find [] 0 0 1 0 = none ↔ (1 : Int) % 8 ≠ 0) := by
  have hrel : thread_find_rel [] 0 0 1 0 (-1) 2 false none := by
    unfold thread_find_rel
    rw [if_neg (by decide)]
  exact c9_validation [] 0 0 1 0 (-1) 2 false none hrel

/-- C8: the planned segments scan pairwise disjoint stride sets whose
concatenation is exactly the strided index list of the whole range; when
fewer strides than workers exist the surplus segments are empty with start
beyond end, and a worker assigned an empty segment reports no matches under
either strategy and either flag state. -/
theorem c8_planner_partition (i_start i_end i_step : Int) (hst : 0 < i_step)
    (hse : i_start ≤ i_end) :
    ((((List.range 8).map fun t => steppedRange (seg_i_end i_start i_end i_step t) i_step
        (seg_i_start i_start i_end i_step t)).flatten = steppedRange i_end i_step i_start) ∧
      List.Pairwise List.Disjoint ((List.range 8).map fun t =>
        steppedRange (seg_i_end i_start i_end i_step t) i_step
          (seg_i_start i_start i_end i_step t))) ∧
    (stride_count i_start i_end i_step < 8 →
      seg_i_start i_start i_end i_step 0 > seg_i_end i_start i_end i_step 0) ∧
    (∀ t : Nat, seg_i_start i_start i_end i_step t > seg_i_end i_start i_end i_step t →
      ∀ (ver : Int) (stop0 : Bool) (U : List Int) (val : Int),
        seg_run ver stop0 U i_start i_end i_step val t = []) := by
  refine ⟨⟨partition_stepped i_start i_end i_step hst hse, ?_⟩, ?_, ?_⟩
  · have hnd : (steppedRange i_end i_step i_start).Nodup := steppedRange_nodup hst _ _
    rw [← partition_stepped i_start i_end i_step hst hse] at hnd
    exact (List.nodup_flatten.1 hnd).2
  · intro hM
    have hM1 := stride_count_pos i_start i_end i_step hst hse
    have h2 : Int.tdiv ((((0 : Nat) : Int) + 1) * stride_count i_start i_end i_step) 8 = 0 := by
      rw [Int.tdiv_eq_ediv (by push_cast; omega) (by norm_num)]
      push_cast
      rw [one_mul]
      exact ediv_eq_of_bounds _ _ 0 (by norm_num) (by omega) (by omega)
    unfold seg_i_start seg_i_end
    rw [h2]
    push_cast
    simp only [zero_mul, Int.zero_tdiv]
    omega
  · intro t hts ver stop0 U val
    unfold seg_run
    split
    · cases stop0 with
      | false =>
        rw [scalar_thread_function_false, findLoop, dif_neg (by omega)]
      | true =>
        exact scalar_thread_function_true U val _ _ _
    · rw [vect_thread_function, dif_neg (by omega), findLoop, dif_neg (by omega)]

/-- C8 witness at a concrete input: three strides over eight workers leave
the first segment empty, and a worker on an empty segment reports nothing. -/
theorem c8_witness :
    (seg_i_start 0 2 1 0 > seg_i_end 0 2 1 0) ∧ seg_run 0 false [] 0 2 1 0 0 = [] := by
  have h := c8_planner_partition 0 2 1 (by norm_num) (by norm_num)
  have hM : stride_count 0 2 1 < 8 := by decide
  exact ⟨h.2.1 hM, h.2.2 0 (h.2.1 hM) 0 false [] 0⟩

/-! Computable closed forms of the complete worker runs, used to evaluate
concrete scenarios. -/

/-- Closed form of a complete scalar worker run. -/
theorem seg_run_eval_scalar (U : List Int) (i_start i_end i_step val : Int) (t : Nat)
    (hst : 0 < i_step) :
    seg_run 0 false U i_start i_end i_step val t =
      ((List.range ((seg_i_end i_start i_end i_step t - seg_i_start i_start i_end i_step t) /
          i_step + 1).toNat).map
        (fun (j : Nat) => seg_i_start i_start i_end i_step t + (j : Int) * i_step)).filter
        (fun x => decide (getI U x = val)) := by
  unfold seg_run
  rw [if_pos rfl, scalar_thread_function_false, findLoop_eq_filter, steppedRange_eq_map hst]

/-- Closed form of a complete vector worker run with step 8 on floatExact
data. -/
theorem seg_run_eval_vect (U : List Int) (i_start i_end val : Int) (t : Nat)
    (hU : ∀ x ∈ U, floatExact x) (hval : floatExact val) :
    seg_run 1 false U i_start i_end 8 val t =
      ((List.range ((seg_i_end i_start i_end 8 t - seg_i_start i_start i_end 8 t) / 1 +
          1).toNat).map
        (fun (j : Nat) => seg_i_start i_start i_end 8 t + (j : Int) * 1)).filter
        (fun x => decide (getI U x = val)) := by
  unfold seg_run
  rw [if_neg (by norm_num), vect_thread_function_false, vect_loop_eq_scalar hU hval,
    findLoop_eq_filter, steppedRange_eq_map (by norm_num)]

/-- A scalar worker that enters with the flag already raised exits at once. -/
theorem seg_run_scalar_stopped (U : List Int) (i_start i_end i_step val : Int) (t : Nat) :
    seg_run 0 true U i_start i_end i_step val t = [] := by
  unfold seg_run
  rw [if_pos rfl]
  exact scalar_thread_function_true U val _ _ _

/-- C1 (amended): with threshold -1 no watchdog is started, every worker
runs its segment to completion and nothing is trimmed, so the parallel
search returns exactly the single-threaded result: for the scalar strategy
this equals find on the same full range with the same step, for every valid
input; for the vectorized strategy it equals vect_find on the same full
range provided the step is 8, the range length is a multiple of 8 (so that
the padded stride grid ends exactly at i_end) and the float comparison is
exact on the data. -/
theorem c1_full_range_parallel_equiv (U : List Int) (i_start i_end i_step val ver : Int)
    (res : Option (List Int)) (hst : 0 < i_step) (hse : i_start ≤ i_end)
    (hrel : thread_find_rel U i_start i_end i_step val (-1) ver false res) :
    (ver = 0 → res = some (find U i_start i_end i_step val)) ∧
    (ver = 1 → i_step = 8 → (i_end - i_start) % 8 = 7 → (∀ x ∈ U, floatExact x) →
      floatExact val → res = vect_find U i_start i_end 8 val) := by
  constructor
  · intro h0
    subst h0
    have hok : thread_find_ok i_step 0 = true := (thread_find_ok_iff i_step 0).2 (Or.inl rfl)
    rw [thread_find_rel_unthresholded (by norm_num) hok hrel,
      workers_flatten_scalar U i_start i_end i_step val hst hse]
  · intro h1 h8 hr hU hval
    subst h1
    subst h8
    have hok : thread_find_ok 8 1 = true := by decide
    rw [thread_find_rel_unthresholded (by norm_num) hok hrel,
      workers_flatten_vect U i_start i_end val hse hr hU hval,
      vect_find_eq_scalar U i_start i_end val hU hval]

/-- C1 counterexample: for the vectorized strategy on the range 0..2, whose
length 3 is not a multiple of 8, the planner gives the last worker the
segment 0..7, and its tail loop scans past i_end = 2: with k = -1 the
parallel search reports index 3 while vect_find over the same full range
reports nothing, so the two sets of indices differ. -/
theorem c1_counterexample :
    thread_find_rel [0, 0, 0, 5, 0, 0, 0, 0] 0 2 8 5 (-1) 1 false (some [3]) ∧
    vect_find [0, 0, 0, 5, 0, 0, 0, 0] 0 2 8 5 = some [] ∧
    ¬ (∀ i : Int, i ∈ [(3 : Int)] ↔ i ∈ ([] : List Int)) := by
  have hU : ∀ x ∈ [(0 : Int), 0, 0, 5, 0, 0, 0, 0], floatExact x := by
    intro x hx
    simp only [List.mem_cons, List.not_mem_nil, or_false] at hx
    rcases hx with rfl | rfl | rfl | rfl | rfl | rfl | rfl | rfl <;>
      exact floatExact_small (by norm_num) (by norm_num)
  have hval : floatExact 5 := floatExact_small (by norm_num) (by norm_num)
  have hev : ∀ t : Nat, seg_run 1 false [0, 0, 0, 5, 0, 0, 0, 0] 0 2 8 5 t =
      ((List.range ((seg_i_end 0 2 8 t - seg_i_start 0 2 8 t) / 1 + 1).toNat).map
        (fun (j : Nat) => seg_i_start 0 2 8 t + (j : Int) * 1)).filter
        (fun x => decide (getI [0, 0, 0, 5, 0, 0, 0, 0] x = 5)) :=
    fun t => seg_run_eval_vect [0, 0, 0, 5, 0, 0, 0, 0] 0 2 5 t hU hval
  refine ⟨?_, ?_, fun h => (by decide : ¬ (3 : Int) ∈ ([] : List Int)) ((h 3).mp (by decide))⟩
  · unfold thread_find_rel
    rw [if_pos (by decide)]
    refine ⟨fun _ => 8, Or.inl ?_, ?_⟩
    · simp only [hev]
      decide
    · simp only [worker_outs, hev, assemble]
      decide
  · unfold vect_find
    rw [if_neg (by decide), vect_loop, dif_neg (by decide), findLoop_eq_filter,
      steppedRange_eq_map (by norm_num)]
    decide

/-- C1 witness at a concrete input, scalar strategy over the full range. -/
theorem c1_witness : some [0, 2, 3, 5] = some (find [5, 2, 5, 5, 1, 5] 0 5 1 5) := by
  have hev : ∀ t : Nat, seg_run 0 false [5, 2, 5, 5, 1, 5] 0 5 1 5 t =
      ((List.range ((seg_i_end 0 5 1 t - seg_i_start 0 5 1 t) / 1 + 1).toNat).map
        (fun (j : Nat) => seg_i_start 0 5 1 t + (j : Int) * 1)).filter
        (fun x => decide (getI [5, 2, 5, 5, 1, 5] x = 5)) :=
    fun t => seg_run_eval_scalar [5, 2, 5, 5, 1, 5] 0 5 1 5 t (by norm_num)
  have hrel : thread_find_rel [5, 2, 5, 5, 1, 5] 0 5 1 5 (-1) 0 false (some [0, 2, 3, 5]) := by
    unfold thread_find_rel
    rw [if_pos (by decide)]
    refine ⟨fun _ => 8, Or.inl ?_, ?_⟩
    · simp only [hev]
      decide
    · simp only [worker_outs, hev, assemble]
      decide
  exact (c1_full_range_parallel_equiv [5, 2, 5, 5, 1, 5] 0 5 1 5 0 (some [0, 2, 3, 5])
    (by norm_num) (by norm_num) hrel).1 rfl

/-- C2 (amended): for a threshold k at least 0 and the searches on which
the worker pool scans exactly the requested range (scalar strategy on any
valid input; vectorized strategy with step 8 on a range whose length is a
multiple of 8 and floatExact data), every outcome of thread_find entered
with a clear flag has count equal to min of the raw match count of the
range and k.  The watchdog raises the flag only after seeing a counter sum
strictly over k, counters are monotone, and the dispatcher trims any
overshoot, which forces the minimum in every schedule. -/
theorem c2_threshold_min (U : List Int) (i_start i_end i_step val k ver : Int)
    (res : Option (List Int)) (hst : 0 < i_step) (hse : i_start ≤ i_end) (hk : 0 ≤ k)
    (hver : ver = 0 ∨ (ver = 1 ∧ i_step = 8 ∧ (i_end - i_start) % 8 = 7 ∧
      (∀ x ∈ U, floatExact x) ∧ floatExact val))
    (hrel : thread_find_rel U i_start i_end i_step val k ver false res) :
    ∃ l, res = some l ∧
      (l.length : Int) =
        min ((find U i_start i_end (if ver = 0 then i_step else 1) val).length : Int) k := by
  have hok : thread_find_ok i_step ver = true := by
    rcases hver with h0 | ⟨h1, h8, _, _, _⟩
    · exact (thread_find_ok_iff _ _).2 (Or.inl h0)
    · exact (thread_find_ok_iff _ _).2 (Or.inr ⟨h1, by rw [h8]; decide⟩)
  have hfull : ((List.range 8).map fun t =>
      seg_run ver false U i_start i_end i_step val t).flatten =
      find U i_start i_end (if ver = 0 then i_step else 1) val := by
    rcases hver with h0 | ⟨h1, h8, hr, hU, hval⟩
    · subst h0
      rw [if_pos rfl]
      exact workers_flatten_scalar U i_start i_end i_step val hst hse
    · subst h1
      subst h8
      rw [if_neg (by norm_num)]
      exact workers_flatten_vect U i_start i_end val hse hr hU hval
  unfold thread_find_rel at hrel
  rw [if_pos hok] at hrel
  obtain ⟨cut, hdisj, hres⟩ := hrel
  refine ⟨_, hres, ?_⟩
  rw [assemble_length _ hk]
  rcases hdisj with hfullcut | ⟨hk0, hgt⟩
  · have houts : worker_outs ver false U i_start i_end i_step val cut =
        (List.range 8).map fun t => seg_run ver false U i_start i_end i_step val t := by
      unfold worker_outs
      apply List.map_congr_left
      intro t ht
      exact List.take_of_length_le (hfullcut t (List.mem_range.1 ht))
    rw [houts, hfull]
  · have hle := worker_outs_length_le ver false U i_start i_end i_step val cut
    rw [hfull] at hle
    have hle' : ((worker_outs ver false U i_start i_end i_step val cut).flatten.length : Int) ≤
        ((find U i_start i_end (if ver = 0 then i_step else 1) val).length : Int) := by
      exact_mod_cast hle
    rw [min_eq_right (by omega), min_eq_right (by omega)]

/-- C2 counterexample: with the vectorized strategy on the range 0..2 and
threshold 5, the last worker scans past i_end and finds index 3, so the
call returns count 1, while the raw match count of the searched range is 0,
and min 0 5 = 0. -/
theorem c2_counterexample :
    thread_find_rel [0, 0, 0, 5, 0, 0, 0, 0] 0 2 8 5 5 1 false (some [3]) ∧
    (find [0, 0, 0, 5, 0, 0, 0, 0] 0 2 1 5).length = 0 ∧
    (find [0, 0, 0, 5, 0, 0, 0, 0] 0 2 8 5).length = 0 ∧
    ([(3 : Int)] : List Int).length = 1 := by
  have hU : ∀ x ∈ [(0 : Int), 0, 0, 5, 0, 0, 0, 0], floatExact x := by
    intro x hx
    simp only [List.mem_cons, List.not_mem_nil, or_false] at hx
    rcases hx with rfl | rfl | rfl | rfl | rfl | rfl | rfl | rfl <;>
      exact floatExact_small (by norm_num) (by norm_num)
  have hval : floatExact 5 := floatExact_small (by norm_num) (by norm_num)
  have hev : ∀ t : Nat, seg_run 1 false [0, 0, 0, 5, 0, 0, 0, 0] 0 2 8 5 t =
      ((List.range ((seg_i_end 0 2 8 t - seg_i_start 0 2 8 t) / 1 + 1).toNat).map
        (fun (j : Nat) => seg_i_start 0 2 8 t + (j : Int) * 1)).filter
        (fun x => decide (getI [0, 0, 0, 5, 0, 0, 0, 0] x = 5)) :=
    fun t => seg_run_eval_vect [0, 0, 0, 5, 0, 0, 0, 0] 0 2 5 t hU hval
  refine ⟨?_, ?_, ?_, rfl⟩
  · unfold thread_find_rel
    rw [if_pos (by decide)]
    refine ⟨fun _ => 8, Or.inl ?_, ?_⟩
    · simp only [hev]
      decide
    · simp only [worker_outs, hev, assemble]
      decide
  · unfold find
    rw [findLoop_eq_filter, steppedRange_eq_map (by norm_num)]
    decide
  · unfold find
    rw [findLoop_eq_filter, steppedRange_eq_map (by norm_num)]
    decide

/-- C2 witness at a concrete input, scalar strategy with threshold 2. -/
theorem c2_witness : ∃ l, (some [0, 2] : Option (List Int)) = some l ∧
    (l.length : Int) =
      min ((find [5, 2, 5, 5, 1, 5] 0 5 (if (0 : Int) = 0 then 1 else 1) 5).length : Int) 2 := by
  have hev : ∀ t : Nat, seg_run 0 false [5, 2, 5, 5, 1, 5] 0 5 1 5 t =
      ((List.range ((seg_i_end 0 5 1 t - seg_i_start 0 5 1 t) / 1 + 1).toNat).map
        (fun (j : Nat) => seg_i_start 0 5 1 t + (j : Int) * 1)).filter
        (fun x => decide (getI [5, 2, 5, 5, 1, 5] x = 5)) :=
    fun t => seg_run_eval_scalar [5, 2, 5, 5, 1, 5] 0 5 1 5 t (by norm_num)
  have hrel : thread_find_rel [5, 2, 5, 5, 1, 5] 0 5 1 5 2 0 false (some [0, 2]) := by
    unfold thread_find_rel
    rw [if_pos (by decide)]
    refine ⟨fun _ => 8, Or.inl ?_, ?_⟩
    · simp only [hev]
      decide
    · simp only [worker_outs, hev, assemble]
      decide
  exact c2_threshold_min [5, 2, 5, 5, 1, 5] 0 5 1 5 2 0 (some [0, 2]) (by norm_num)
    (by norm_num) (by norm_num) (Or.inl rfl) hrel

/-- C3 (amended): on the searches whose workers stay inside the requested
range (scalar strategy on any valid input; vectorized strategy with step 8
on a range whose length is a multiple of 8 and floatExact data), every
successful outcome of thread_find, thresholded or not and whatever the
initial flag, is a strictly increasing list of valid indices of the array
holding the target value; the returned count is the length of that list. -/
theorem c3_result_wellformed (U : List Int) (i_start i_end i_step val k ver : Int)
    (stop0 : Bool) (res : Option (List Int)) (hst : 0 < i_step) (hse : i_start ≤ i_end)
    (h0 : 0 ≤ i_start) (hlen : i_end < (U.length : Int))
    (hver : ver = 0 ∨ (ver = 1 ∧ i_step = 8 ∧ (i_end - i_start) % 8 = 7 ∧
      (∀ x ∈ U, floatExact x) ∧ floatExact val))
    (hrel : thread_find_rel U i_start i_end i_step val k ver stop0 res) :
    ∃ l, res = some l ∧ l.Pairwise (· < ·) ∧
      ∀ i ∈ l, 0 ≤ i ∧ i < (U.length : Int) ∧ getI U i = val := by
  have hok : thread_find_ok i_step ver = true := by
    rcases hver with hv0 | ⟨h1, h8, _, _, _⟩
    · exact (thread_find_ok_iff _ _).2 (Or.inl hv0)
    · exact (thread_find_ok_iff _ _).2 (Or.inr ⟨h1, by rw [h8]; decide⟩)
  have hver' : ver = 0 ∨ (ver = 1 ∧ i_step = 8 ∧ (∀ x ∈ U, floatExact x) ∧ floatExact val) := by
    rcases hver with hv0 | ⟨h1, h8, _, hU, hv⟩
    · exact Or.inl hv0
    · exact Or.inr ⟨h1, h8, hU, hv⟩
  unfold thread_find_rel at hrel
  rw [if_pos hok] at hrel
  obtain ⟨cut, _, hres⟩ := hrel
  refine ⟨_, hres, ?_, ?_⟩
  · have hpw : ((worker_outs ver stop0 U i_start i_end i_step val cut).flatten).Pairwise
        (· < ·) := by
      rw [List.pairwise_flatten]
      constructor
      · intro l hl
        unfold worker_outs at hl
        rw [List.mem_map] at hl
        obtain ⟨t, ht, rfl⟩ := hl
        exact List.Pairwise.sublist (List.take_sublist _ _)
          (seg_run_pairwise ver stop0 U i_start i_end i_step val t hst hver')
      · unfold worker_outs
        rw [List.pairwise_map]
        refine (List.pairwise_lt_range 8).imp ?_
        intro a b hab x hx y hy
        have hxm := mem_seg_run ver stop0 U i_start i_end i_step val a hst hver'
          (List.take_subset _ _ hx)
        have hym := mem_seg_run ver stop0 U i_start i_end i_step val b hst hver'
          (List.take_subset _ _ hy)
        have hlt := seg_lt i_start i_end i_step hst hse hab
        omega
    unfold assemble
    split
    · exact List.Pairwise.sublist (List.take_sublist _ _) hpw
    · exact hpw
  · intro i hi
    have hi' : i ∈ (worker_outs ver stop0 U i_start i_end i_step val cut).flatten := by
      revert hi
      unfold assemble
      split
      · intro hi
        exact List.take_subset _ _ hi
      · exact id
    rw [List.mem_flatten] at hi'
    obtain ⟨l, hl, hil⟩ := hi'
    unfold worker_outs at hl
    rw [List.mem_map] at hl
    obtain ⟨t, ht, rfl⟩ := hl
    rw [List.mem_range] at ht
    obtain ⟨hlo, hhi, hv, hstep0⟩ := mem_seg_run ver stop0 U i_start i_end i_step val t hst hver'
      (List.take_subset _ _ hil)
    have hs0 : i_start ≤ seg_i_start i_start i_end i_step t := by
      have h := seg_i_start_mono i_start i_end i_step hst hse (Nat.zero_le t)
      rw [seg_i_start_zero] at h
      exact h
    have hie : i ≤ i_end := by
      rcases hver with hv0 | ⟨h1, h8, hr, _, _⟩
      · exact (mem_stepped_bounds hst
          (seg_mem_global i_start i_end i_step hst hse ht (hstep0 hv0))).2
      · subst h8
        have hend := seg_i_end_le i_start i_end 8 (by norm_num) hse ht
        rw [stride_grid_end i_start i_end hse hr] at hend
        omega
    exact ⟨by omega, by omega, hv⟩

/-- C3 counterexample: with the vectorized strategy on the range 0..2 of a
three-element array, the last worker scans up to index 7, reading past the
array (undefined behaviour in C, default reads in the model), and the call
returns indices that are not valid indices of the array. -/
theorem c3_counterexample :
    thread_find_rel [1, 1, 1] 0 2 8 0 (-1) 1 false (some [3, 4, 5, 6, 7]) ∧
    ¬ (∀ i ∈ ([3, 4, 5, 6, 7] : List Int),
        0 ≤ i ∧ i < (([1, 1, 1] : List Int).length : Int) ∧ getI [1, 1, 1] i = 0) := by
  have hU : ∀ x ∈ [(1 : Int), 1, 1], floatExact x := by
    intro x hx
    simp only [List.mem_cons, List.not_mem_nil, or_false] at hx
    rcases hx with rfl | rfl | rfl <;> exact floatExact_small (by norm_num) (by norm_num)
  have hval : floatExact 0 := floatExact_small (by norm_num) (by norm_num)
  have hev : ∀ t : Nat, seg_run 1 false [1, 1, 1] 0 2 8 0 t =
      ((List.range ((seg_i_end 0 2 8 t - seg_i_start 0 2 8 t) / 1 + 1).toNat).map
        (fun (j : Nat) => seg_i_start 0 2 8 t + (j : Int) * 1)).filter
        (fun x => decide (getI [1, 1, 1] x = 0)) :=
    fun t => seg_run_eval_vect [1, 1, 1] 0 2 0 t hU hval
  refine ⟨?_, by decide⟩
  unfold thread_find_rel
  rw [if_pos (by decide)]
  refine ⟨fun _ => 8, Or.inl ?_, ?_⟩
  · simp only [hev]
    decide
  · simp only [worker_outs, hev, assemble]
    decide

/-- C3 witness at a concrete input, scalar strategy with threshold 2. -/
theorem c3_witness : ∃ l, (some [0, 2] : Option (List Int)) = some l ∧
    l.Pairwise (· < ·) ∧ ∀ i ∈ l,
      0 ≤ i ∧ i < (([5, 2, 5, 5, 1, 5] : List Int).length : Int) ∧
        getI [5, 2, 5, 5, 1, 5] i = 5 := by
  have hev : ∀ t : Nat, seg_run 0 false [5, 2, 5, 5, 1, 5] 0 5 1 5 t =
      ((List.range ((seg_i_end 0 5 1 t - seg_i_start 0 5 1 t) / 1 + 1).toNat).map
        (fun (j : Nat) => seg_i_start 0 5 1 t + (j : Int) * 1)).filter
        (fun x => decide (getI [5, 2, 5, 5, 1, 5] x = 5)) :=
    fun t => seg_run_eval_scalar [5, 2, 5, 5, 1, 5] 0 5 1 5 t (by norm_num)
  have hrel : thread_find_rel [5, 2, 5, 5, 1, 5] 0 5 1 5 2 0 false (some [0, 2]) := by
    unfold thread_find_rel
    rw [if_pos (by decide)]
    refine ⟨fun _ => 8, Or.inl ?_, ?_⟩
    · simp only [hev]
      decide
    · simp only [worker_outs, hev, assemble]
      decide
  exact c3_result_wellformed [5, 2, 5, 5, 1, 5] 0 5 1 5 2 0 false (some [0, 2]) (by norm_num)
    (by norm_num) (by norm_num) (by decide) (Or.inl rfl) hrel

/-- C6 (code bug): thread_find resets the per-worker counters but never
resets the shared flag stop_threads, which it sets to true at the end of
every run; a second invocation in the same process therefore starts its
workers with the flag already true, and (here with the scalar strategy)
they all exit at once: the claimed reset to false before workers start does
not happen, and the stale flag changes the result of the new search. -/
theorem c6_stale_flag_not_reset :
    stop_after false 1 0 = true ∧
    thread_find_rel [5] 0 0 1 5 (-1) 0 false (some [0]) ∧
    (∀ res, thread_find_rel [5] 0 0 1 5 (-1) 0 (stop_after false 1 0) res →
      res = some []) := by
  have hev : ∀ t : Nat, seg_run 0 false [5] 0 0 1 5 t =
      ((List.range ((seg_i_end 0 0 1 t - seg_i_start 0 0 1 t) / 1 + 1).toNat).map
        (fun (j : Nat) => seg_i_start 0 0 1 t + (j : Int) * 1)).filter
        (fun x => decide (getI [5] x = 5)) :=
    fun t => seg_run_eval_scalar [5] 0 0 1 5 t (by norm_num)
  refine ⟨by decide, ?_, ?_⟩
  · unfold thread_find_rel
    rw [if_pos (by decide)]
    refine ⟨fun _ => 8, Or.inl ?_, ?_⟩
    · simp only [hev]
      decide
    · simp only [worker_outs, hev, assemble]
      decide
  · intro res hrel
    rw [show stop_after false 1 0 = true from by decide] at hrel
    rw [thread_find_rel_unthresholded (by norm_num) (by decide) hrel]
    have hev2 : ∀ t : Nat, seg_run 0 true [5] 0 0 1 5 t = [] :=
      fun t => seg_run_scalar_stopped [5] 0 0 1 5 t
    simp only [hev2]
    decide

/-- C7 (code bug): two thread_find calls with identical inputs over the
same immutable array do not return identical results, because the second
call inherits the stale true stop_threads flag from the first: the first
call returns index 0, the second returns nothing. -/
theorem c7_repeat_call_differs :
    thread_find_rel [5] 0 0 1 5 (-1) 0 false (some [0]) ∧
    (∀ res2, thread_find_rel [5] 0 0 1 5 (-1) 0 (stop_after false 1 0) res2 →
      res2 = some [] ∧ res2 ≠ some [0]) := by
  have hev : ∀ t : Nat, seg_run 0 false [5] 0 0 1 5 t =
      ((List.range ((seg_i_end 0 0 1 t - seg_i_start 0 0 1 t) / 1 + 1).toNat).map
        (fun (j : Nat) => seg_i_start 0 0 1 t + (j : Int) * 1)).filter
        (fun x => decide (getI [5] x = 5)) :=
    fun t => seg_run_eval_scalar [5] 0 0 1 5 t (by norm_num)
  constructor
  · unfold thread_find_rel
    rw [if_pos (by decide)]
    refine ⟨fun _ => 8, Or.inl ?_, ?_⟩
    · simp only [hev]
      decide
    · simp only [worker_outs, hev, assemble]
      decide
  · intro res2 hrel
    rw [show stop_after false 1 0 = true from by decide] at hrel
    have h := thread_find_rel_unthresholded (by norm_num) (by decide) hrel
    have hev2 : ∀ t : Nat, seg_run 0 true [5] 0 0 1 5 t = [] :=
      fun t => seg_run_scalar_stopped [5] 0 0 1 5 t
    simp only [hev2] at h
    constructor
    · rw [h]
      decide
    · rw [h]
      decide
